import Mathlib

/-!
Shallow embedding of the core of `local-chat-mcp`:

* `ToolCallParser` (src/src/local_chat_agent/mcp/tool_executor.py):
  the tool-call regex `### TOOL_CALL:\s*(\S+)\s*\n```(?:json)?\s*\n(.*?)\n``` `
  (DOTALL) is embedded as an explicit matcher over `List Char`, with the
  backtracking behaviour of Python's `re` engine specialised to this pattern;
  `re.finditer`/`re.sub` become `scanT` (an alternating list of literal
  characters and matches) plus mapping functions.
* `json.loads` / `json.dumps` are embedded for the fragment used by the
  program: null, booleans, integers (no floats), strings with the basic
  one-character escapes (no `\u`), arrays and objects.  Object equality is
  structural, which coincides with Python `==` when key order agrees.
* `agentic_execute` (tool_executor.py), `MCPClientManager`
  (client_manager.py), the HTTP routes (routes/mcp.py, routes/chat.py)
  and `load_mcp_config` (config_loader.py) are embedded as pure functions,
  with I/O (LLM generation, tool dispatch, the file system) passed in as
  function-typed parameters.

Whitespace is modelled by `Char.isWhitespace` (space, tab, CR, LF), the
ASCII core of Python's `\s` and `str.strip()`.
-/

namespace LocalChatMCP

/-- Convert a string literal to its character list. -/
def strL (s : String) : List Char := s.toList

/-- Left brace character, kept out of literals. -/
def lbrace : Char := Char.ofNat 123

/-- Right brace character, kept out of literals. -/
def rbrace : Char := Char.ofNat 125

/-- Model: `t` with the literal `p` removed from the front, when `p` is a prefix. -/
def chopLit (p t : List Char) : Option (List Char) :=
  if p.isPrefixOf t then some (t.drop p.length) else none

/-- Python `needle in haystack` on strings: substring containment. -/
def hasSub (needle : List Char) : List Char → Bool
  | [] => needle.isEmpty
  | c :: cs => needle.isPrefixOf (c :: cs) || hasSub needle cs

/-- Python `str.strip()` (ASCII-whitespace fragment). -/
def stripWs (l : List Char) : List Char :=
  ((l.dropWhile Char.isWhitespace).reverse.dropWhile Char.isWhitespace).reverse

/-- Drop leading JSON whitespace. -/
def skipWs (l : List Char) : List Char := l.dropWhile Char.isWhitespace

/-- Python dict assignment `d[k] = v`: replace the value in place if the key
is present, otherwise append the binding. -/
def dictInsert {α β : Type} [DecidableEq α] (k : α) (v : β) : List (α × β) → List (α × β)
  | [] => [(k, v)]
  | (k', v') :: t => if k' = k then (k', v) :: t else (k', v') :: dictInsert k v t

/-- Lookup in a Python-dict-as-association-list. -/
def dictLookup {α β : Type} [DecidableEq α] (k : α) : List (α × β) → Option β
  | [] => none
  | (k', v) :: t => if k' = k then some v else dictLookup k t

/-- Python `{**a, **b}`: start from `a`, then insert every binding of `b`
(overriding on key collision, keeping the original position). -/
def dictMerge {α β : Type} [DecidableEq α] (a b : List (α × β)) : List (α × β) :=
  b.foldl (fun acc kv => dictInsert kv.1 kv.2 acc) a

/-- JSON value model for `json.loads` results (fragment: integers instead of
arbitrary numbers, no `\u` escapes).  Arrays and objects carry their own
cons/nil constructors so the derived equality is structural and decidable;
it agrees with Python `==` whenever object key order agrees. -/
inductive JVal where
  | null : JVal
  | bool (b : Bool) : JVal
  | num (n : Int) : JVal
  | str (s : List Char) : JVal
  | arrNil : JVal
  | arrCons (hd tl : JVal) : JVal
  | objNil : JVal
  | objCons (key : List Char) (val tl : JVal) : JVal
deriving DecidableEq, Repr

/-- Python dict insertion inside an object under construction: duplicate keys
keep their first position and take the latest value (`json.loads` semantics). -/
def jobjInsert (k : List Char) (v : JVal) : JVal → JVal
  | .objCons k' v' t => if k' = k then .objCons k' v t else .objCons k' v' (jobjInsert k v t)
  | _ => .objCons k v .objNil

/-- Build a `JVal` array from a Lean list. -/
def arrOfList (xs : List JVal) : JVal := xs.foldr .arrCons .arrNil

/-- One-character JSON string escapes accepted by `json.loads`. -/
def escChar (c : Char) : Option Char :=
  if c = '"' then some '"'
  else if c = '\\' then some '\\'
  else if c = '/' then some '/'
  else if c = 'b' then some (Char.ofNat 8)
  else if c = 'f' then some (Char.ofNat 12)
  else if c = 'n' then some '\n'
  else if c = 'r' then some '\r'
  else if c = 't' then some '\t'
  else none

/-- JSON string body parser, positioned after the opening quote; rejects raw
control characters and unknown escapes, as `json.loads` does. -/
def pStr : List Char → Option (List Char × List Char)
  | [] => none
  | '"' :: r => some ([], r)
  | '\\' :: e :: r =>
    match escChar e with
    | none => none
    | some ec =>
      match pStr r with
      | none => none
      | some (s, rest) => some (ec :: s, rest)
  | '\\' :: [] => none
  | c :: r =>
    if c.toNat < 32 then none
    else
      match pStr r with
      | none => none
      | some (s, rest) => some (c :: s, rest)

/-- Decimal digits to a natural number accumulator. -/
def digitsToNat (ds : List Char) : Nat := ds.foldl (fun a c => a * 10 + (c.toNat - 48)) 0

/-- JSON number parser (integer fragment: a leading `-`, digits without a
redundant leading zero; anything continuing with `.`/`e`/`E` is a float and
is outside the embedded fragment, so parsing fails). -/
def pNum (t : List Char) : Option (Int × List Char) :=
  let neg : Bool := match t with | '-' :: _ => true | _ => false
  let t1 := if neg then t.drop 1 else t
  let ds := t1.takeWhile Char.isDigit
  let rest := t1.dropWhile Char.isDigit
  if ds = [] then none
  else if 2 ≤ ds.length ∧ ds.head? = some '0' then none
  else
    match rest with
    | c :: _ =>
      if c = '.' ∨ c = 'e' ∨ c = 'E' then none
      else some (if neg then -(digitsToNat ds : Int) else (digitsToNat ds : Int), rest)
    | [] => some (if neg then -(digitsToNat ds : Int) else (digitsToNat ds : Int), rest)

/-- Parser mode: a full value, the tail of an array, or the tail of an
object (with the bindings accumulated so far). -/
inductive PMode where
  | value : PMode
  | elems (acc : List JVal) : PMode
  | fields (acc : JVal) : PMode

/-- Fuel-indexed recursive-descent JSON parser (structure of
`json.loads` on the embedded fragment). -/
def pAux : Nat → PMode → List Char → Option (JVal × List Char)
  | 0, _, _ => none
  | _ + 1, .value, [] => none
  | f + 1, .value, c :: r =>
    if c = '"' then (pStr r).map (fun sr => (JVal.str sr.1, sr.2))
    else if c = '[' then
      match skipWs r with
      | ']' :: r2 => some (JVal.arrNil, r2)
      | r1 => pAux f (.elems []) r1
    else if c = lbrace then
      match skipWs r with
      | c2 :: r2 => if c2 = rbrace then some (JVal.objNil, r2) else pAux f (.fields .objNil) (c2 :: r2)
      | [] => none
    else if (strL "true").isPrefixOf (c :: r) then some (JVal.bool true, (c :: r).drop 4)
    else if (strL "false").isPrefixOf (c :: r) then some (JVal.bool false, (c :: r).drop 5)
    else if (strL "null").isPrefixOf (c :: r) then some (JVal.null, (c :: r).drop 4)
    else (pNum (c :: r)).map (fun nr => (JVal.num nr.1, nr.2))
  | f + 1, .elems acc, t =>
    match pAux f .value t with
    | none => none
    | some (v, r) =>
      match skipWs r with
      | c :: r2 =>
        if c = ']' then some (arrOfList (acc ++ [v]), r2)
        else if c = ',' then pAux f (.elems (acc ++ [v])) (skipWs r2)
        else none
      | [] => none
  | f + 1, .fields acc, t =>
    match t with
    | '"' :: r =>
      match pStr r with
      | none => none
      | some (k, r1) =>
        match skipWs r1 with
        | ':' :: r2 =>
          match pAux f .value (skipWs r2) with
          | none => none
          | some (v, r3) =>
            match skipWs r3 with
            | c3 :: r4 =>
              if c3 = rbrace then some (jobjInsert k v acc, r4)
              else if c3 = ',' then pAux f (.fields (jobjInsert k v acc)) (skipWs r4)
              else none
            | [] => none
        | _ => none
    | _ => none

/-- Model: `json.loads` on the embedded fragment: parse one value and require at
most trailing whitespace. -/
def jsonLoads (t : List Char) : Option JVal :=
  match pAux (2 * t.length + 8) .value (skipWs t) with
  | some (v, r) => if skipWs r = [] then some v else none
  | none => none

/-- Model: `json.dumps` string rendering with default options (fragment: basic
escapes; other control characters do not occur in the embedded values). -/
def dumpStrBody : List Char → List Char
  | [] => []
  | c :: r =>
    if c = '"' then '\\' :: '"' :: dumpStrBody r
    else if c = '\\' then '\\' :: '\\' :: dumpStrBody r
    else if c = '\n' then '\\' :: 'n' :: dumpStrBody r
    else if c = '\t' then '\\' :: 't' :: dumpStrBody r
    else if c = '\r' then '\\' :: 'r' :: dumpStrBody r
    else c :: dumpStrBody r

/-- Render a JSON string literal. -/
def dumpStr (s : List Char) : List Char := '"' :: dumpStrBody s ++ ['"']

mutual

/-- Model: `json.dumps` with default separators `", "` and `": "`. -/
def jsonDumps : JVal → List Char
  | .null => strL "null"
  | .bool true => strL "true"
  | .bool false => strL "false"
  | .num n => (Int.repr n).toList
  | .str s => dumpStr s
  | .arrNil => strL "[]"
  | .arrCons h t => '[' :: (jsonDumps h ++ dumpArrTail t)
  | .objNil => strL "\x7b\x7d"
  | .objCons k v t => lbrace :: (dumpStr k ++ strL ": " ++ jsonDumps v ++ dumpObjTail t)

/-- Array elements after the first. -/
def dumpArrTail : JVal → List Char
  | .arrCons h t => strL ", " ++ jsonDumps h ++ dumpArrTail t
  | _ => [']']

/-- Object fields after the first. -/
def dumpObjTail : JVal → List Char
  | .objCons k v t => strL ", " ++ dumpStr k ++ strL ": " ++ jsonDumps v ++ dumpObjTail t
  | _ => [rbrace]

end

/-! ## The tool-call pattern

`ToolCallParser.TOOL_CALL_PATTERN` is
`### TOOL_CALL:\s*(\S+)\s*\n```(?:json)?\s*\n(.*?)\n``` ` with `re.DOTALL`.
Specialised to this pattern, the `re` engine behaves as follows at an
anchored position (verified against CPython):

* after the literal marker, `\s*` takes the маximal whitespace run and
  `(\S+)` the maximal non-whitespace run (backtracking can never rescue a
  shorter choice, since `\s`/`\S` are complementary);
* the following `\s*\n` must consume the whole whitespace run after the name
  and that run must end in a newline, because the next literal is a
  non-whitespace backtick;
* after the fence (and optional `json` tag), `\s*\n(.*?)\n``` ` tries each
  newline of the following whitespace run from the rightmost to the
  leftmost, and for each one takes the earliest later occurrence of
  ``"\n```"`` as the body terminator; the first combination that succeeds
  wins.
-/

/-- The literal `### TOOL_CALL:`. -/
def tcMarker : List Char := strL "### TOOL_CALL:"

/-- The literal fence ` ``` `. -/
def fenceL : List Char := strL "```"

/-- The body terminator `"\n```"`. -/
def termL : List Char := '\n' :: strL "```"

/-- The optional fence tag `json`. -/
def jsonTag : List Char := strL "json"

/-- Model: `(.*?)\n``` `: split at the earliest occurrence of the terminator. -/
def findBody : List Char → Option (List Char × List Char)
  | [] => none
  | c :: cs =>
    if termL.isPrefixOf (c :: cs) then some ([], (c :: cs).drop 4)
    else
      match findBody cs with
      | none => none
      | some (b, r) => some (c :: b, r)

/-- All ways to split a list around one of its newline characters,
leftmost first. -/
def nlSplits : List Char → List (List Char × List Char)
  | [] => []
  | c :: cs =>
    (if c = '\n' then [(([] : List Char), cs)] else [])
      ++ (nlSplits cs).map (fun p => (c :: p.1, p.2))

/-- First `some` produced by `f` along `l`. -/
def firstSome {α β : Type} (l : List α) (f : α → Option β) : Option β :=
  match l with
  | [] => none
  | a :: r =>
    match f a with
    | some b => some b
    | none => firstSome r f

/-- Model: `\s*\n(.*?)\n``` `: returns `(eaten, body, rest)` where `eaten` is the
whitespace consumed up to and including the chosen newline; the rightmost
workable newline of the leading whitespace run wins. -/
def nlBody (t : List Char) : Option (List Char × List Char × List Char) :=
  let w := t.takeWhile Char.isWhitespace
  let r := t.dropWhile Char.isWhitespace
  firstSome (nlSplits w).reverse (fun ps =>
    match findBody (ps.2 ++ r) with
    | some (b, rest) => some (ps.1 ++ ['\n'], b, rest)
    | none => none)

/-- One match of the tool-call pattern: the full matched text (group 0),
the name (group 1) and the fenced body (group 2). -/
structure TCM where
  consumed : List Char
  name : List Char
  body : List Char
deriving DecidableEq, Repr

/-- Model: `(?:json)? \s*\n (.*?) \n``` `: the part after the opening fence.
Returns `(eaten, body, rest)`; the greedy `json` alternative is tried
first (its fallback can never succeed, since `j` is not whitespace, but
it is kept for structural fidelity to the engine). -/
def fenceTail (t5 : List Char) : Option (List Char × List Char × List Char) :=
  if jsonTag.isPrefixOf t5 then
    match nlBody (t5.drop 4) with
    | some ebr => some (jsonTag ++ ebr.1, ebr.2.1, ebr.2.2)
    | none =>
      match nlBody t5 with
      | some ebr => some (ebr.1, ebr.2.1, ebr.2.2)
      | none => none
  else
    match nlBody t5 with
    | some ebr => some (ebr.1, ebr.2.1, ebr.2.2)
    | none => none

/-- Anchored match of the tool-call pattern; returns the match and the
remaining input. -/
def tryMatch (t : List Char) : Option (TCM × List Char) :=
  match chopLit tcMarker t with
  | none => none
  | some t1 =>
    let w1 := t1.takeWhile Char.isWhitespace
    let t2 := t1.dropWhile Char.isWhitespace
    let nm := t2.takeWhile (fun c => !c.isWhitespace)
    let t3 := t2.dropWhile (fun c => !c.isWhitespace)
    if nm = [] then none
    else
      let w2 := t3.takeWhile Char.isWhitespace
      let t4 := t3.dropWhile Char.isWhitespace
      if w2.getLast? = some '\n' then
        match chopLit fenceL t4 with
        | none => none
        | some t5 =>
          match fenceTail t5 with
          | some ebr =>
            some (⟨tcMarker ++ w1 ++ nm ++ w2 ++ fenceL ++ ebr.1 ++ ebr.2.1 ++ termL,
                   nm, ebr.2.1⟩, ebr.2.2)
          | none => none
      else none

/-- A segment of scanned text: a literal character or a pattern match. -/
inductive Seg where
  | lit (c : Char) : Seg
  | call (m : TCM) : Seg
deriving DecidableEq, Repr

/-- Model: `re.finditer`-style scan, fuel-indexed (the fuel `t.length` always
suffices because every match consumes at least the marker). -/
def scanF : Nat → List Char → List Seg
  | 0, _ => []
  | _ + 1, [] => []
  | f + 1, c :: cs =>
    match tryMatch (c :: cs) with
    | some (m, rest) => .call m :: scanF f rest
    | none => .lit c :: scanF f cs

/-- Scan a text into alternating literal and match segments. -/
def scanT (t : List Char) : List Seg := scanF t.length t

/-- The source text of one segment. -/
def segText : Seg → List Char
  | .lit c => [c]
  | .call m => m.consumed

/-- Concatenation of the segments' source text. -/
def segsText (l : List Seg) : List Char := (l.map segText).flatten

/-- The matches of the pattern in a text, in appearance order. -/
def findTCs (t : List Char) : List TCM :=
  (scanT t).filterMap (fun s => match s with | .call m => some m | _ => none)

/-- Model: `ToolCallParser.extract_tool_calls`: all tool calls of a text, in
appearance order; a block whose body does not parse as JSON is skipped. -/
def extract_tool_calls (t : List Char) : List (List Char × JVal) :=
  (findTCs t).filterMap (fun m =>
    match jsonLoads (stripWs m.body) with
    | some a => some (stripWs m.name, a)
    | none => none)

/-- The replacement block `### TOOL_RESULT: <name>\n```\n<result>\n``` `. -/
def resultBlock (toolName result : List Char) : List Char :=
  strL "### TOOL_RESULT: " ++ toolName ++ '\n' :: fenceL ++ '\n' :: result ++ '\n' :: fenceL

/-- The `replacer` callback of `replace_tool_call_with_result`, applied to
one segment: a match is replaced when its name (stripped) equals the tool
name and its JSON-decoded arguments equal the given arguments; everything
else is reproduced verbatim (`match.group(0)`). -/
def segReplace (toolName : List Char) (args : JVal) (result : List Char) : Seg → List Char
  | .lit c => [c]
  | .call m =>
    if stripWs m.name = toolName then
      match jsonLoads (stripWs m.body) with
      | some a => if a = args then resultBlock toolName result else m.consumed
      | none => m.consumed
    else m.consumed

/-- Model: `ToolCallParser.replace_tool_call_with_result`: `re.sub` applies the
replacer to every non-overlapping match, left to right. -/
def replace_tool_call_with_result (t toolName : List Char) (args : JVal) (result : List Char) : List Char :=
  ((scanT t).map (segReplace toolName args result)).flatten

/-! ## Agentic execution loop (`agentic_execute`, tool_executor.py) -/

/-- Outcome of one tool dispatch inside the loop: the formatted success
text, or the message of the exception raised. -/
inductive ToolOutcome where
  | success (result : List Char) : ToolOutcome
  | failure (error : List Char) : ToolOutcome
deriving DecidableEq, Repr

/-- One entry of the loop's `tool_results` list. -/
structure ToolResultRec where
  tool : List Char
  arguments : JVal
  outcome : ToolOutcome
deriving DecidableEq, Repr

/-- Join a list of texts with a separator (`sep.join(...)`). -/
def joinSep (sep : List Char) : List (List Char) → List Char
  | [] => []
  | [x] => x
  | x :: xs => x ++ sep ++ joinSep sep xs

/-- One section of `format_tool_results_for_llm`. -/
def formatOneResult (tr : ToolResultRec) : List Char :=
  strL "### TOOL_RESULT: " ++ tr.tool
    ++ '\n' :: strL "Arguments: " ++ jsonDumps tr.arguments
    ++ '\n' :: strL "Status: "
    ++ (match tr.outcome with
        | .success res => strL "success" ++ '\n' :: fenceL ++ '\n' :: res ++ '\n' :: fenceL
        | .failure err => strL "error" ++ '\n' :: strL "Error: " ++ err)

/-- Model: `format_tool_results_for_llm`: sections joined by a blank line. -/
def format_tool_results_for_llm (trs : List ToolResultRec) : List Char :=
  joinSep (strL "\n\n") (trs.map formatOneResult)

/-- Execute the extracted calls in order, recording success or error per
call (the try/except around `call_tool_by_name`). -/
def runCalls (execTool : List Char → JVal → ToolOutcome) (calls : List (List Char × JVal)) :
    List ToolResultRec :=
  calls.map (fun c => ⟨c.1, c.2, execTool c.1 c.2⟩)

/-- The transcript extension performed at the end of each turn. -/
def convAppend (conv out results : List Char) : List Char :=
  conv ++ strL "\n\nAssistant:\n" ++ out
    ++ strL "\n\nSystem (Tool Results):\n" ++ results
    ++ strL "\n\nContinue with your response, using the tool results above. If you need more information, make another tool call. Otherwise, provide your final output."

/-- Result of the agentic loop: the returned text (`none` models the
`NameError` of returning `llm_output` when the loop body never ran), the
number of generation requests issued, and the number of tool dispatches. -/
structure AgenticResult where
  output : Option (List Char)
  genCalls : Nat
  toolExecs : Nat
deriving DecidableEq, Repr

/-- The `for turn in range(max_turns)` loop of `agentic_execute`; `gen`
stands for the generation request (conversation ↦ response text) and
`execTool` for `call_tool_by_name`. -/
def agenticGo (gen : List Char → List Char) (execTool : List Char → JVal → ToolOutcome) :
    Nat → List Char → Option (List Char) → AgenticResult
  | 0, _, lastOut => ⟨lastOut, 0, 0⟩
  | n + 1, conv, _ =>
    let out := gen conv
    let calls := extract_tool_calls out
    if calls = [] then ⟨some out, 1, 0⟩
    else
      let results := format_tool_results_for_llm (runCalls execTool calls)
      let r := agenticGo gen execTool n (convAppend conv out results) (some out)
      ⟨r.output, r.genCalls + 1, r.toolExecs + calls.length⟩

/-- Model: `agentic_execute`: run the loop from the initial prompt. -/
def agentic_execute (gen : List Char → List Char) (execTool : List Char → JVal → ToolOutcome)
    (maxTurns : Nat) (initialPrompt : List Char) : AgenticResult :=
  agenticGo gen execTool maxTurns initialPrompt none

/-- The transcript produced by one full turn on conversation `conv`. -/
def convStep (gen : List Char → List Char) (execTool : List Char → JVal → ToolOutcome)
    (conv : List Char) : List Char :=
  let out := gen conv
  convAppend conv out (format_tool_results_for_llm (runCalls execTool (extract_tool_calls out)))

/-- The transcript before turn `k` (0-based) of the loop. -/
def nthConv (gen : List Char → List Char) (execTool : List Char → JVal → ToolOutcome)
    (init : List Char) : Nat → List Char
  | 0 => init
  | k + 1 => convStep gen execTool (nthConv gen execTool init k)

/-! ## Connection manager (`MCPClientManager`, client_manager.py) -/

/-- Transport kinds. -/
inductive Transport where
  | stdio : Transport
  | sse : Transport
  | streamableHttp : Transport
deriving DecidableEq, Repr

/-- Tool descriptor (`MCPTool`). -/
structure MCPTool where
  server_name : String
  name : String
  description : String
  input_schema : JVal
deriving DecidableEq, Repr

/-- Runtime connection handle (`MCPServerConnection`): the session is
abstracted to an identity plus the behaviour of `session.call_tool`
(`Except.error` models a raised exception). -/
structure Conn where
  sessionId : Nat
  transport : Transport
  tools : List MCPTool
  call : String → JVal → Except String JVal

/-- Manager state: the `self.connections` dict (insertion-ordered). -/
structure Manager where
  connections : List (String × Conn)

/-- Model: `MCPClientManager.connect`: registers the freshly created connection
under the name (a plain dict assignment — an existing entry is replaced)
and returns the discovered tools. -/
def connect (m : Manager) (server_name : String) (conn : Conn) : Manager × List MCPTool :=
  (⟨dictInsert server_name conn m.connections⟩, conn.tools)

/-- The registration step of `MCPClientManager.connect_persistent` (the
same dict assignment, before the keep-alive sleep loop). -/
def connect_persistent_register (m : Manager) (server_name : String) (conn : Conn) : Manager :=
  ⟨dictInsert server_name conn m.connections⟩

/-- Model: `MCPClientManager.is_connected`. -/
def is_connected (m : Manager) (server_name : String) : Bool :=
  (dictLookup server_name m.connections).isSome

/-- Errors of the tool-call paths: the two `ValueError`s raised by the
manager, and any other exception escaping `session.call_tool`. -/
inductive CallErr where
  | toolNotFound (tool : String) : CallErr
  | notConnected (server : String) : CallErr
  | execFail (msg : String) : CallErr
deriving DecidableEq, Repr

/-- Model: `str(e)` for the errors above. -/
def errStr : CallErr → String
  | .toolNotFound t => "Tool '" ++ t ++ "' not found on any connected server"
  | .notConnected s => "Not connected to MCP server: " ++ s
  | .execFail msg => msg

/-- Model: `MCPClientManager.call_tool`. -/
def call_tool (m : Manager) (server_name tool_name : String) (args : JVal) : Except CallErr JVal :=
  match dictLookup server_name m.connections with
  | none => .error (.notConnected server_name)
  | some conn =>
    match conn.call tool_name args with
    | .ok v => .ok v
    | .error e => .error (.execFail e)

/-- The `for server_name, connection in self.connections.items()` loop of
`call_tool_by_name`: the first connection whose tool list contains the
name wins. -/
def ctbnGo (m : Manager) (tool_name : String) (args : JVal) :
    List (String × Conn) → Except CallErr JVal
  | [] => .error (.toolNotFound tool_name)
  | (sn, conn) :: rest =>
    if conn.tools.any (fun tl => tl.name == tool_name) then call_tool m sn tool_name args
    else ctbnGo m tool_name args rest

/-- Model: `MCPClientManager.call_tool_by_name`. -/
def call_tool_by_name (m : Manager) (tool_name : String) (args : JVal) : Except CallErr JVal :=
  ctbnGo m tool_name args m.connections

/-! ## Management routes (routes/mcp.py) -/

/-- An HTTP response of the tool-call route: status plus the `error` field
of the JSON body (absent on success). -/
structure RouteResp where
  status : Nat
  error : Option String
deriving DecidableEq, Repr

/-- Model: `call_mcp_tool` (POST /mcp/tools/{tool_name}/call): `ValueError`
becomes 404 with `str(e)`, any other exception becomes 500. -/
def call_mcp_tool (m : Manager) (tool_name : String) (args : JVal) : RouteResp :=
  match call_tool_by_name m tool_name args with
  | .ok _ => ⟨200, none⟩
  | .error (.toolNotFound t) => ⟨404, some (errStr (.toolNotFound t))⟩
  | .error (.notConnected s) => ⟨404, some (errStr (.notConnected s))⟩
  | .error (.execFail msg) => ⟨500, some ("Tool execution failed: " ++ msg)⟩

/-- Response of the connect endpoint, together with the resulting manager
state and whether a background task was started. -/
structure ConnectResp where
  status : Nat
  error : Option String
  manager : Manager
  taskStarted : Bool

/-- Model: `connect_mcp_server` (POST /mcp/servers/{server_name}/connect):
rejects an already-connected name with 400 before starting anything;
otherwise starts the background task, whose outcome by the readiness
re-check is abstracted as `establish`. -/
def connect_mcp_server (m : Manager) (server_name : String) (establish : Option Conn) :
    ConnectResp :=
  if is_connected m server_name then
    ⟨400, some ("Server '" ++ server_name ++ "' is already connected"), m, false⟩
  else
    match establish with
    | some conn => ⟨200, none, connect_persistent_register m server_name conn, true⟩
    | none => ⟨500, some "Connection started but server not ready", m, true⟩

/-! ## Multi-file emission parser (`parse_and_save_files`, routes/chat.py)

The split pattern is `### FILE:\s*([^\n]+)\n`.  At an anchored position the
`re` engine takes the maximal whitespace run for `\s*`; when the following
non-whitespace text contains a newline the group is everything up to it;
otherwise `\s*` backtracks and, when the whitespace run ends in newlines
preceded by a non-newline character, the group degenerates to that single
character (verified against CPython). -/

/-- The literal `### FILE:`. -/
def fileMarker : List Char := strL "### FILE:"

/-- Backtracking case of the FILE pattern: the whole text after the
whitespace run has no newline, so `[^\n]+\n` must match inside the run. -/
def backtrackFile (w rest : List Char) : Option (List Char × List Char) :=
  let wRev := w.reverse
  let s := wRev.takeWhile (fun c => c ≠ '\n')
  let afterS := wRev.drop s.length
  let nls := afterS.takeWhile (fun c => c = '\n')
  let afterNls := afterS.drop nls.length
  match afterNls with
  | c :: _ => if nls = [] then none else some ([c], nls.drop 1 ++ s.reverse ++ rest)
  | [] => none

/-- Anchored match of the FILE pattern: returns the captured group and the
remaining input. -/
def fileMatchAt (t : List Char) : Option (List Char × List Char) :=
  match chopLit fileMarker t with
  | none => none
  | some t1 =>
    let w := t1.takeWhile Char.isWhitespace
    let rest := t1.dropWhile Char.isWhitespace
    if rest.contains '\n' then
      some (rest.takeWhile (fun c => c ≠ '\n'), (rest.dropWhile (fun c => c ≠ '\n')).drop 1)
    else backtrackFile w rest

/-- Model: `re.split` on the FILE pattern, fuel-indexed: pieces interleaved with
captured groups. -/
def fileSplitF : Nat → List Char → List Char → List (List Char)
  | 0, t, acc => [acc.reverse ++ t]
  | _ + 1, [], acc => [acc.reverse]
  | f + 1, c :: cs, acc =>
    match fileMatchAt (c :: cs) with
    | some (grp, rem) => acc.reverse :: grp :: fileSplitF f rem []
    | none => fileSplitF f cs (c :: acc)

/-- Model: `re.split(r'### FILE:\s*([^\n]+)\n', raw_text)`. -/
def fileSplit (t : List Char) : List (List Char) := fileSplitF t.length t []

/-- Split on newline characters (every piece, including a trailing empty
one). -/
def splitOnNl : List Char → List (List Char)
  | [] => [[]]
  | c :: cs =>
    if c = '\n' then [] :: splitOnNl cs
    else
      match splitOnNl cs with
      | [] => [[c]]
      | l :: ls => (c :: l) :: ls

/-- Python `str.splitlines()` (LF fragment). -/
def splitlines (t : List Char) : List (List Char) :=
  if t = [] then []
  else
    let parts := splitOnNl t
    if parts.getLast? = some [] then parts.dropLast else parts

/-- The markdown-fence cleanup applied to each segment body. -/
def fenceCleanup (content : List Char) : List Char :=
  if fenceL.isPrefixOf (stripWs content) then
    let lines := splitlines content
    let lines1 :=
      match lines with
      | l0 :: rest => if fenceL.isPrefixOf l0 then rest else lines
      | [] => lines
    let lines2 :=
      if !lines1.isEmpty && (match lines1.getLast? with
          | some ll => fenceL.isPrefixOf ll
          | none => false) then lines1.dropLast
      else lines1
    joinSep ['\n'] lines2
  else content

/-- The path-traversal rejection: `".." in fname or fname.startswith("/")
or fname.startswith("\\")`. -/
def isUnsafeName (f : List Char) : Bool :=
  hasSub (strL "..") f || (strL "/").isPrefixOf f || (strL "\\").isPrefixOf f

/-- Model: `(segments[i], segments[i+1])` pairs for odd `i`. -/
def pairsOf : List (List Char) → List (List Char × List Char)
  | n :: b :: rest => (n, b) :: pairsOf rest
  | _ => []

/-- The name/body pairs of a split result (dropping the leading piece). -/
def segPairs (segs : List (List Char)) : List (List Char × List Char) :=
  match segs with
  | _ :: rest => pairsOf rest
  | [] => []

/-- Model: `parse_and_save_files` as a pure function: `none` when fewer than 3
segments (no markers), otherwise the list of `(filename, content)` files
written, in order; unsafe names are skipped. -/
def parse_and_save_files (raw : List Char) : Option (List (List Char × List Char)) :=
  let segs := fileSplit raw
  if segs.length < 3 then none
  else
    some ((segPairs segs).filterMap (fun nb =>
      let fname := stripWs nb.1
      let content := fenceCleanup nb.2
      if isUnsafeName fname then none else some (fname, content)))

/-! ## Batch refactor endpoint (`refactor_endpoint`, routes/chat.py) -/

/-- Per-file result dict of `process_file`. -/
inductive FileRes where
  | succ (filename : String) : FileRes
  | err (filename error : String) : FileRes
  | skip (filename error : String) : FileRes
deriving DecidableEq, Repr

/-- Model: `r["status"] == "skipped"`. -/
def isSkip : FileRes → Bool
  | .skip _ _ => true
  | _ => false

/-- Model: `r["status"] == "error"`. -/
def isErr : FileRes → Bool
  | .err _ _ => true
  | _ => false

/-- Model: `r["filename"]`. -/
def frName : FileRes → String
  | .succ f => f
  | .err f _ => f
  | .skip f _ => f

/-- Model: `r.get("error", "unknown")`. -/
def frErr : FileRes → String
  | .err _ e => e
  | .skip _ e => e
  | .succ _ => "unknown"

/-- Response of the refactor endpoint: the 502 JSON error report, or the
zip artifact (`FileResponse` carries only the archive — no error payload). -/
inductive RefactorResp where
  | report (status : Nat) (error : String) (details : List (String × String)) : RefactorResp
  | artifact (files : List (String × String)) : RefactorResp
deriving DecidableEq, Repr

/-- The per-file error entries carried by a response (none on an artifact:
`FileResponse` has no error field). -/
def respErrors : RefactorResp → List (String × String)
  | .report _ _ d => d
  | .artifact _ => []

/-- The result-aggregation tail of `refactor_endpoint`: `results` are the
per-file outcomes, `archiveFiles` the files present under the extraction
directory when the zip is rebuilt. -/
def refactor_endpoint (results : List FileRes) (archiveFiles : List (String × String)) :
    RefactorResp :=
  let processed := results.filter (fun r => !isSkip r)
  let failed := processed.filter isErr
  if !processed.isEmpty && failed.length == processed.length then
    .report 502 "All files failed to process. Is Ollama running and the model pulled?"
      (failed.map (fun r => (frName r, frErr r)))
  else .artifact archiveFiles

/-! ## MCP configuration loader (`load_mcp_config`, config_loader.py) -/

/-- Model: `\w` (ASCII fragment). -/
def isWordChar (c : Char) : Bool := c.isAlphanum || c = '_'

/-- Model: `_interpolate_env_vars`: replace `${VAR}` by the variable's value when
set, leaving unresolved references verbatim; replacements are not
re-scanned. -/
def interpEnv (env : List (List Char × List Char)) : Nat → List Char → List Char
  | 0, t => t
  | _ + 1, [] => []
  | f + 1, c :: cs =>
    if c = '$' then
      match cs with
      | c2 :: cs2 =>
        if c2 = lbrace then
          let v := cs2.takeWhile isWordChar
          let rest := cs2.dropWhile isWordChar
          match rest with
          | c3 :: cs3 =>
            if c3 = rbrace ∧ v ≠ [] then
              match dictLookup v env with
              | some val => val ++ interpEnv env f cs3
              | none => '$' :: lbrace :: (v ++ rbrace :: interpEnv env f cs3)
            else c :: interpEnv env f cs
          | [] => c :: interpEnv env f cs
        else c :: interpEnv env f cs
      | [] => [c]
    else c :: interpEnv env f cs

/-- Interpolate one string value against the process environment. -/
def interpStr (procEnv : List (List Char × List Char)) (s : List Char) : List Char :=
  interpEnv procEnv s.length s

/-- A stdio server entry of `mcpServers` (`{"command", "args", "env"}`). -/
structure StdioCfg where
  command : List Char
  args : List (List Char)
  env : List (List Char × List Char)

/-- The `StdioServerParameters` produced by `load_mcp_config`. -/
structure StdioParams where
  command : List Char
  args : List (List Char)
  env : List (List Char × List Char)
deriving DecidableEq

/-- The stdio branch of `load_mcp_config`: values interpolated by
`_interpolate_dict`, then `env = {**os.environ, **cfg.get("env", {})}`. -/
def load_stdio_server (procEnv : List (List Char × List Char)) (cfg : StdioCfg) : StdioParams :=
  ⟨interpStr procEnv cfg.command,
   cfg.args.map (interpStr procEnv),
   dictMerge procEnv (cfg.env.map (fun kv => (kv.1, interpStr procEnv kv.2)))⟩

/-! ## Derived notions used by the theorems -/

/-- Whether a segment is a tool-call block matched by the replacer: name
(stripped) equal and JSON-decoded arguments equal. -/
def segMatches (toolName : List Char) (args : JVal) : Seg → Bool
  | .lit _ => false
  | .call m =>
    if stripWs m.name = toolName then
      match jsonLoads (stripWs m.body) with
      | some a => decide (a = args)
      | none => false
    else false

/-- A canonical well-formed tool-call block
`### TOOL_CALL: <n>\n```json\n<body>\n``` `. -/
def mkBlock (n body : List Char) : List Char :=
  tcMarker ++ ' ' :: n ++ '\n' :: fenceL ++ jsonTag ++ '\n' :: body ++ termL

/-- The backtick character. -/
def btick : Char := Char.ofNat 96

/-- The part of a canonical block after the opening fence. -/
def tcTailF (body rest : List Char) : List Char :=
  jsonTag ++ ('\n' :: (body ++ (termL ++ rest)))

/-- The part of a canonical block after the name. -/
def tcTailD (body rest : List Char) : List Char :=
  '\n' :: (fenceL ++ tcTailF body rest)

/-- The part of a canonical block after the marker. -/
def mkBlockTail (n body rest : List Char) : List Char :=
  ' ' :: (n ++ tcTailD body rest)

/-- The JSON object `\x7b"a": 1\x7d`. -/
def exArgsA : JVal := .objCons (strL "a") (.num 1) .objNil

/-- A concrete block calling `f` with arguments `\x7b"a": 1\x7d`. -/
def advBlock : List Char := strL "### TOOL_CALL: f\n```json\n\x7b\"a\": 1\x7d\n```"

/-- A text with two identical tool-call blocks. -/
def exTwoBlocks : List Char :=
  strL "x\n" ++ advBlock ++ strL "\nmid\n" ++ advBlock ++ strL "\ntail"

/-- Model: `advBlock` once substituted with a result that itself embeds a
matching tool-call block. -/
def advOnce : List Char :=
  replace_tool_call_with_result advBlock (strL "f") exArgsA advBlock

/-- A generation output consisting of one well-formed tool-call block. -/
def wToolText : List Char := strL "### TOOL_CALL: t\n```json\n\x7b\x7d\n```"

/-- A generation function that always emits a tool-call block. -/
def wGen : List Char → List Char := fun _ => wToolText

/-- A generation function that never emits a tool-call block. -/
def wGenPlain : List Char → List Char := fun _ => strL "done"

/-- A tool-dispatch stub. -/
def wExec : List Char → JVal → ToolOutcome := fun _ _ => .success (strL "ok")

/-- An initial prompt. -/
def wInit : List Char := strL "go"

/-- A connection handle (identity 1). -/
def connOne : Conn := ⟨1, .stdio, [], fun _ _ => .ok .null⟩

/-- A different connection handle (identity 2). -/
def connTwo : Conn := ⟨2, .stdio, [], fun _ _ => .ok .null⟩

/-- A manager already holding a live connection named `alpha`. -/
def mgrOne : Manager := ⟨[("alpha", connOne)]⟩

/-- A connection owning only a tool named `other`. -/
def connOther : Conn := ⟨3, .sse, [⟨"s", "other", "", .null⟩], fun _ _ => .ok .null⟩

/-- A manager whose only connection owns no tool named `t`. -/
def mgrNine : Manager := ⟨[("s", connOther)]⟩

/-- A process environment with two variables. -/
def wProcEnv : List (List Char × List Char) := [(strL "K", strL "proc"), (strL "P", strL "inherit")]

/-- A stdio server entry overriding `K`. -/
def wCfg : StdioCfg := ⟨strL "cmd", [], [(strL "K", strL "entry")]⟩

/-! ## Helper lemmas -/

theorem chopLit_append {p t r : List Char} (h : chopLit p t = some r) : p ++ r = t := by
  unfold chopLit at h
  split at h
  · rename_i hp
    rw [ List.isPrefixOf_iff_prefix] at hp
    cases h
    exact (List.prefix_iff_eq_append.mp hp)
  · exact absurd h (by simp)

theorem chopLit_exact (p r : List Char) : chopLit p (p ++ r) = some r := by
  unfold chopLit
  rw [if_pos ( List.isPrefixOf_iff_prefix.mpr (List.prefix_append p r))]
  simp

theorem findBody_append : ∀ {l b r : List Char}, findBody l = some (b, r) → b ++ termL ++ r = l := by
  intro l
  induction l with
  | nil => intro b r h; simp [findBody] at h
  | cons c cs ih =>
    intro b r h
    rw [findBody] at h
    split at h
    · rename_i hp
      rw [ List.isPrefixOf_iff_prefix] at hp
      cases h
      have : termL.length = 4 := by decide
      simpa [this] using (List.prefix_iff_eq_append.mp hp)
    · revert h
      cases hfb : findBody cs with
      | none => intro h; exact absurd h (by simp)
      | some br =>
        intro h
        obtain ⟨b', r'⟩ := br
        have := ih hfb
        simp only [Option.some.injEq, Prod.mk.injEq] at h
        obtain ⟨hb, hr⟩ := h
        subst hb hr
        simpa using congrArg (c :: ·) this

theorem nlSplits_mem : ∀ {w p s : List Char}, (p, s) ∈ nlSplits w → p ++ '\n' :: s = w := by
  intro w
  induction w with
  | nil => intro p s h; simp [nlSplits] at h
  | cons c cs ih =>
    intro p s h
    rw [nlSplits] at h
    rw [List.mem_append] at h
    rcases h with h | h
    · split at h
      · rename_i hc
        simp only [List.mem_singleton, Prod.mk.injEq] at h
        obtain ⟨hp, hs⟩ := h
        subst hp hs hc
        rfl
      · simp at h
    · rw [List.mem_map] at h
      obtain ⟨⟨p', s'⟩, hmem, heq⟩ := h
      simp only [Prod.mk.injEq] at heq
      obtain ⟨hp, hs⟩ := heq
      subst hp hs
      simpa using congrArg (c :: ·) (ih hmem)

theorem firstSome_mem {α β : Type} : ∀ {l : List α} {f : α → Option β} {b : β},
    firstSome l f = some b → ∃ a ∈ l, f a = some b := by
  intro l
  induction l with
  | nil => intro f b h; simp [firstSome] at h
  | cons a r ih =>
    intro f b h
    rw [firstSome] at h
    revert h
    cases hfa : f a with
    | some b' => intro h; cases h; exact ⟨a, by simp, hfa⟩
    | none =>
      intro h
      obtain ⟨a', hmem, hfa'⟩ := ih h
      exact ⟨a', by simp [hmem], hfa'⟩

theorem nlBody_append {t e b r : List Char} (h : nlBody t = some (e, b, r)) :
    e ++ b ++ termL ++ r = t := by
  unfold nlBody at h
  obtain ⟨⟨p, s⟩, hmem, hf⟩ := firstSome_mem h
  rw [List.mem_reverse] at hmem
  have hw := nlSplits_mem hmem
  revert hf
  cases hfb : findBody (s ++ t.dropWhile Char.isWhitespace) with
  | none => intro hf; exact absurd hf (by simp)
  | some br =>
    intro hf
    obtain ⟨b', r'⟩ := br
    simp only [Option.some.injEq, Prod.mk.injEq] at hf
    obtain ⟨he, hb, hr⟩ := hf
    subst he hb hr
    have h1 := findBody_append hfb
    have h2 : p ++ '\n' :: (s ++ t.dropWhile Char.isWhitespace)
        = t.takeWhile Char.isWhitespace ++ t.dropWhile Char.isWhitespace := by
      rw [← hw]; simp
    calc (p ++ ['\n']) ++ b' ++ termL ++ r'
        = p ++ '\n' :: (b' ++ termL ++ r') := by simp
      _ = p ++ '\n' :: (s ++ t.dropWhile Char.isWhitespace) := by rw [h1]
      _ = t.takeWhile Char.isWhitespace ++ t.dropWhile Char.isWhitespace := h2
      _ = t := List.takeWhile_append_dropWhile Char.isWhitespace t

theorem fenceTail_append {t5 e b r : List Char} (h : fenceTail t5 = some (e, b, r)) :
    e ++ b ++ termL ++ r = t5 := by
  unfold fenceTail at h
  split at h
  · rename_i hjson
    rw [ List.isPrefixOf_iff_prefix] at hjson
    have hsplit : jsonTag ++ t5.drop 4 = t5 := by
      have := List.prefix_iff_eq_append.mp hjson
      simpa [show jsonTag.length = 4 from by decide] using this
    split at h
    · rename_i ebr hnb
      obtain ⟨e', b', r'⟩ := ebr
      simp only [Option.some.injEq, Prod.mk.injEq] at h
      obtain ⟨he, hb, hr⟩ := h
      subst he hb hr
      have h1 := nlBody_append hnb
      rw [← hsplit]
      simpa using congrArg (fun l => jsonTag ++ l) h1
    · split at h
      · rename_i ebr hnb2
        obtain ⟨e', b', r'⟩ := ebr
        simp only [Option.some.injEq, Prod.mk.injEq] at h
        obtain ⟨he, hb, hr⟩ := h
        subst he hb hr
        exact nlBody_append hnb2
      · exact absurd h (by simp)
  · split at h
    · rename_i ebr hnb
      obtain ⟨e', b', r'⟩ := ebr
      simp only [Option.some.injEq, Prod.mk.injEq] at h
      obtain ⟨he, hb, hr⟩ := h
      subst he hb hr
      exact nlBody_append hnb
    · exact absurd h (by simp)

theorem consumed_chain (A B C D E F t5 e b r' t1 : List Char)
    (h1 : A ++ B = t1) (h2 : C ++ D = B) (h3 : E ++ F = D)
    (h4 : fenceL ++ t5 = F) (h5 : e ++ b ++ termL ++ r' = t5) :
    tcMarker ++ A ++ C ++ E ++ fenceL ++ e ++ b ++ termL ++ r' = tcMarker ++ t1 := by
  subst h5 h4 h3 h2 h1
  simp

theorem tryMatch_append {t : List Char} {m : TCM} {r : List Char}
    (h : tryMatch t = some (m, r)) : m.consumed ++ r = t := by
  unfold tryMatch at h
  split at h
  · exact absurd h (by simp)
  · rename_i t1 hmk
    simp only at h
    split at h
    · exact absurd h (by simp)
    · split at h
      · split at h
        · exact absurd h (by simp)
        · rename_i t5 hfc
          split at h
          · rename_i ebr hft
            obtain ⟨e, b, r'⟩ := ebr
            simp only [Option.some.injEq, Prod.mk.injEq] at h
            obtain ⟨hm, hr⟩ := h
            subst hm hr
            have h1 : tcMarker ++ t1 = t := chopLit_append hmk
            have h5 := fenceTail_append hft
            have h4 := chopLit_append hfc
            have main := consumed_chain
              (t1.takeWhile Char.isWhitespace)
              (t1.dropWhile Char.isWhitespace)
              ((t1.dropWhile Char.isWhitespace).takeWhile (fun c => !c.isWhitespace))
              ((t1.dropWhile Char.isWhitespace).dropWhile (fun c => !c.isWhitespace))
              ((t1.dropWhile Char.isWhitespace).dropWhile (fun c => !c.isWhitespace)
                |>.takeWhile Char.isWhitespace)
              ((t1.dropWhile Char.isWhitespace).dropWhile (fun c => !c.isWhitespace)
                |>.dropWhile Char.isWhitespace)
              t5 e b r' t1
              (List.takeWhile_append_dropWhile Char.isWhitespace t1)
              (List.takeWhile_append_dropWhile (fun c => !c.isWhitespace)
                (t1.dropWhile Char.isWhitespace))
              (List.takeWhile_append_dropWhile Char.isWhitespace
                ((t1.dropWhile Char.isWhitespace).dropWhile (fun c => !c.isWhitespace)))
              h4 h5
            exact main.trans h1
          · exact absurd h (by simp)
      · exact absurd h (by simp)

theorem tryMatch_consumed_pos {t : List Char} {m : TCM} {r : List Char}
    (h : tryMatch t = some (m, r)) : 0 < m.consumed.length := by
  unfold tryMatch at h
  split at h
  · exact absurd h (by simp)
  · simp only at h
    split at h
    · exact absurd h (by simp)
    · split at h
      · split at h
        · exact absurd h (by simp)
        · split at h
          · simp only [Option.some.injEq, Prod.mk.injEq] at h
            obtain ⟨hm, _⟩ := h
            subst hm
            simp only [List.length_append]
            have : tcMarker.length = 14 := by decide
            omega
          · exact absurd h (by simp)
      · exact absurd h (by simp)

theorem tryMatch_rest_lt {t : List Char} {m : TCM} {r : List Char}
    (h : tryMatch t = some (m, r)) : r.length < t.length := by
  have h1 := tryMatch_append h
  have h2 : t.length = m.consumed.length + r.length := by rw [← h1]; simp
  have hc := tryMatch_consumed_pos h
  omega

theorem tryMatch_none {t : List Char} (h : tcMarker.isPrefixOf t = false) :
    tryMatch t = none := by
  unfold tryMatch chopLit
  rw [h]
  simp

theorem scanF_congr : ∀ (f g : Nat) (t : List Char), t.length ≤ f → t.length ≤ g →
    scanF f t = scanF g t := by
  intro f
  induction f with
  | zero =>
    intro g t hf _
    have : t = [] := List.eq_nil_of_length_eq_zero (Nat.le_zero.mp hf)
    subst this
    cases g <;> rfl
  | succ f ih =>
    intro g t hf hg
    cases t with
    | nil => cases g <;> rfl
    | cons c cs =>
      cases g with
      | zero => simp at hg
      | succ g =>
        rw [scanF, scanF]
        cases htm : tryMatch (c :: cs) with
        | some mr =>
          obtain ⟨m, rest⟩ := mr
          have hlt := tryMatch_rest_lt htm
          simp only [List.length_cons] at hlt hf hg
          exact congrArg (Seg.call m :: ·) (ih g rest (by omega) (by omega))
        | none =>
          simp only [List.length_cons] at hf hg
          exact congrArg (Seg.lit c :: ·) (ih g cs (by omega) (by omega))

theorem segsText_scanF : ∀ (f : Nat) (t : List Char), t.length ≤ f →
    segsText (scanF f t) = t := by
  intro f
  induction f with
  | zero =>
    intro t hf
    have : t = [] := List.eq_nil_of_length_eq_zero (Nat.le_zero.mp hf)
    subst this
    rfl
  | succ f ih =>
    intro t hf
    cases t with
    | nil => rfl
    | cons c cs =>
      rw [scanF]
      cases htm : tryMatch (c :: cs) with
      | some mr =>
        obtain ⟨m, rest⟩ := mr
        have hlt := tryMatch_rest_lt htm
        simp only [List.length_cons] at hlt hf
        have := ih rest (by omega)
        calc segsText (Seg.call m :: scanF f rest)
            = m.consumed ++ segsText (scanF f rest) := by simp [segsText, segText]
          _ = m.consumed ++ rest := by rw [this]
          _ = c :: cs := tryMatch_append htm
      | none =>
        simp only [List.length_cons] at hf
        have := ih cs (by omega)
        calc segsText (Seg.lit c :: scanF f cs)
            = c :: segsText (scanF f cs) := by simp [segsText, segText]
          _ = c :: cs := by rw [this]

theorem scanT_reconstruct (t : List Char) : segsText (scanT t) = t :=
  segsText_scanF t.length t (Nat.le_refl _)

theorem scanF_all_lit : ∀ (f : Nat) (t : List Char), t.length ≤ f →
    (∀ i < t.length, tcMarker.isPrefixOf (t.drop i) = false) → scanF f t = t.map .lit := by
  intro f
  induction f with
  | zero =>
    intro t hf _
    have : t = [] := List.eq_nil_of_length_eq_zero (Nat.le_zero.mp hf)
    subst this
    rfl
  | succ f ih =>
    intro t hf h
    cases t with
    | nil => rfl
    | cons c cs =>
      rw [scanF]
      rw [tryMatch_none (by simpa using h 0 (by simp))]
      simp only [List.length_cons] at hf
      have := ih cs (by omega)
        (fun i hi => by simpa using h (i + 1) (by simpa using Nat.succ_lt_succ hi))
      rw [this]
      rfl

theorem scanT_all_lit (t : List Char)
    (h : ∀ i < t.length, tcMarker.isPrefixOf (t.drop i) = false) : scanT t = t.map .lit :=
  scanF_all_lit t.length t (Nat.le_refl _) h

theorem scanT_cons_match {t : List Char} {m : TCM} {rest : List Char}
    (h : tryMatch t = some (m, rest)) : scanT t = .call m :: scanT rest := by
  cases t with
  | nil => rw [show tryMatch ([] : List Char) = none from by decide] at h; simp at h
  | cons c cs =>
    unfold scanT
    rw [show (c :: cs).length = cs.length + 1 from rfl, scanF, h]
    have hlt := tryMatch_rest_lt h
    simp only [List.length_cons] at hlt
    exact congrArg (Seg.call m :: ·) (scanF_congr cs.length rest.length rest (by omega) (Nat.le_refl _))

theorem scanT_append_lit : ∀ (p s : List Char),
    (∀ i < p.length, tcMarker.isPrefixOf ((p ++ s).drop i) = false) →
    scanT (p ++ s) = p.map .lit ++ scanT s := by
  intro p
  induction p with
  | nil => intro s _; simp
  | cons c p' ih =>
    intro s h
    have h0 : tryMatch (c :: (p' ++ s)) = none :=
      tryMatch_none (by simpa using h 0 (by simp))
    unfold scanT
    rw [show ((c :: p') ++ s) = c :: (p' ++ s) from rfl]
    rw [show (c :: (p' ++ s)).length = (p' ++ s).length + 1 from rfl, scanF, h0]
    have hcongr : scanF (p' ++ s).length (p' ++ s) = scanT (p' ++ s) := rfl
    rw [hcongr]
    have := ih s (fun i hi => by
      have := h (i + 1) (by simpa using Nat.succ_lt_succ hi)
      simpa using this)
    rw [this]
    rfl

theorem takeWhile_append_all {α : Type} {p : α → Bool} :
    ∀ (a : List α) (x : α) (l : List α), (∀ c ∈ a, p c = true) → p x = false →
    (a ++ x :: l).takeWhile p = a := by
  intro a
  induction a with
  | nil => intro x l _ hx; simp [List.takeWhile, hx]
  | cons c a' ih =>
    intro x l ha hx
    have hc : p c = true := ha c (by simp)
    simp [List.takeWhile_cons, hc, ih x l (fun d hd => ha d (by simp [hd])) hx]

theorem dropWhile_append_all {α : Type} {p : α → Bool} :
    ∀ (a : List α) (x : α) (l : List α), (∀ c ∈ a, p c = true) → p x = false →
    (a ++ x :: l).dropWhile p = x :: l := by
  intro a
  induction a with
  | nil => intro x l _ hx; simp [List.dropWhile, hx]
  | cons c a' ih =>
    intro x l ha hx
    have hc : p c = true := ha c (by simp)
    simp only [List.cons_append, List.dropWhile_cons, hc]
    exact ih x l (fun d hd => ha d (by simp [hd])) hx

theorem dropWhile_eq_self_of_all {α : Type} {p : α → Bool} {l : List α}
    (h : ∀ c ∈ l, p c = false) : l.dropWhile p = l := by
  cases l with
  | nil => rfl
  | cons c cs => simp [List.dropWhile, h c (by simp)]

theorem stripWs_eq_self {l : List Char} (h : ∀ c ∈ l, c.isWhitespace = false) :
    stripWs l = l := by
  unfold stripWs
  rw [dropWhile_eq_self_of_all h]
  rw [dropWhile_eq_self_of_all (fun c hc => h c (List.mem_reverse.mp hc))]
  exact l.reverse_reverse

theorem flatten_singletons : ∀ l : List Char, (l.map (fun c => ([c] : List Char))).flatten = l := by
  intro l
  induction l with
  | nil => rfl
  | cons c cs ih => simp [ih]

theorem findBody_exact : ∀ (b r : List Char),
    (∀ i < b.length, termL.isPrefixOf ((b ++ termL ++ r).drop i) = false) →
    findBody (b ++ termL ++ r) = some (b, r) := by
  intro b
  induction b with
  | nil =>
    intro r _
    have hsh : ([] : List Char) ++ termL ++ r = '\n' :: (strL "```" ++ r) := by
      simp [termL]
    rw [hsh]
    rw [findBody]
    have hpre : termL.isPrefixOf ('\n' :: (strL "```" ++ r)) = true := by
      rw [ List.isPrefixOf_iff_prefix]
      exact List.prefix_iff_eq_append.mpr (by simp [termL, show termL.length = 4 from by decide])
    rw [hpre]
    simp only [if_true, termL, Option.some.injEq, Prod.mk.injEq, List.drop_succ_cons, true_and]
    rw [show (3 : Nat) = (strL "```").length from by decide]
    exact List.drop_left _ _
  | cons c b' ih =>
    intro r h
    have hsh : (c :: b') ++ termL ++ r = c :: (b' ++ termL ++ r) := by simp
    rw [hsh]
    rw [findBody]
    have h0 : termL.isPrefixOf (c :: (b' ++ termL ++ r)) = false := by
      have := h 0 (by simp)
      simpa using this
    rw [h0]
    simp only [Bool.false_eq_true, if_false]
    rw [ih r (fun i hi => by
      have := h (i + 1) (by simp [Nat.succ_lt_succ hi])
      simpa using this)]

theorem nlBody_block (bc : Char) (bt rest : List Char) (hb : bc.isWhitespace = false)
    (hterm : ∀ i < (bc :: bt).length,
      termL.isPrefixOf (((bc :: bt) ++ termL ++ rest).drop i) = false) :
    nlBody ('\n' :: ((bc :: bt) ++ (termL ++ rest))) = some (['\n'], bc :: bt, rest) := by
  unfold nlBody
  have hw : ('\n' :: ((bc :: bt) ++ (termL ++ rest))).takeWhile Char.isWhitespace = ['\n'] := by
    simp [List.takeWhile_cons, hb]
  have hr : ('\n' :: ((bc :: bt) ++ (termL ++ rest))).dropWhile Char.isWhitespace
      = (bc :: bt) ++ (termL ++ rest) := by
    simp [List.dropWhile_cons, hb]
  simp only [hw, hr]
  rw [show nlSplits ['\n'] = [([], [])] from by decide]
  simp only [List.reverse_singleton, firstSome]
  have hfb : findBody (([] : List Char) ++ ((bc :: bt) ++ (termL ++ rest)))
      = some (bc :: bt, rest) := by
    have := findBody_exact (bc :: bt) rest hterm
    simpa using this
  rw [hfb]
  simp

theorem tryMatch_mkBlock (nc bc : Char) (nt bt rest : List Char)
    (hn : ∀ c ∈ nc :: nt, c.isWhitespace = false)
    (hb : bc.isWhitespace = false)
    (hterm : ∀ i < (bc :: bt).length,
      termL.isPrefixOf (((bc :: bt) ++ termL ++ rest).drop i) = false) :
    tryMatch (mkBlock (nc :: nt) (bc :: bt) ++ rest)
      = some (⟨mkBlock (nc :: nt) (bc :: bt), nc :: nt, bc :: bt⟩, rest) := by
  have hnBool : ∀ c ∈ nc :: nt, (!c.isWhitespace) = true := fun c hc => by simp [hn c hc]
  have hT : mkBlock (nc :: nt) (bc :: bt) ++ rest
      = tcMarker ++ mkBlockTail (nc :: nt) (bc :: bt) rest := by
    simp [mkBlock, mkBlockTail, tcTailD, tcTailF]
  have hw1 : (mkBlockTail (nc :: nt) (bc :: bt) rest).takeWhile Char.isWhitespace = [' '] := by
    simp [mkBlockTail, List.takeWhile_cons, hn nc (by simp)]
  have hB : (mkBlockTail (nc :: nt) (bc :: bt) rest).dropWhile Char.isWhitespace
      = (nc :: nt) ++ tcTailD (bc :: bt) rest := by
    simp [mkBlockTail, List.dropWhile_cons, hn nc (by simp)]
  have hC : ((nc :: nt) ++ tcTailD (bc :: bt) rest).takeWhile (fun c => !c.isWhitespace)
      = nc :: nt := by
    rw [show tcTailD (bc :: bt) rest = '\n' :: (fenceL ++ tcTailF (bc :: bt) rest) from rfl]
    exact takeWhile_append_all (nc :: nt) '\n' _ hnBool (by decide)
  have hD : ((nc :: nt) ++ tcTailD (bc :: bt) rest).dropWhile (fun c => !c.isWhitespace)
      = tcTailD (bc :: bt) rest := by
    rw [show tcTailD (bc :: bt) rest = '\n' :: (fenceL ++ tcTailF (bc :: bt) rest) from rfl]
    exact dropWhile_append_all (nc :: nt) '\n' _ hnBool (by decide)
  have hfl : fenceL = btick :: strL "``" := by decide
  have hE : (tcTailD (bc :: bt) rest).takeWhile Char.isWhitespace = ['\n'] := by
    rw [show tcTailD (bc :: bt) rest
        = '\n' :: (fenceL ++ tcTailF (bc :: bt) rest) from rfl, hfl]
    simp [List.takeWhile_cons, show btick.isWhitespace = false from by decide]
  have hT4 : (tcTailD (bc :: bt) rest).dropWhile Char.isWhitespace
      = fenceL ++ tcTailF (bc :: bt) rest := by
    rw [show tcTailD (bc :: bt) rest
        = '\n' :: (fenceL ++ tcTailF (bc :: bt) rest) from rfl, hfl]
    simp [List.dropWhile_cons, show btick.isWhitespace = false from by decide]
  have hchop2 : chopLit fenceL (fenceL ++ tcTailF (bc :: bt) rest)
      = some (tcTailF (bc :: bt) rest) := chopLit_exact _ _
  have hjson : jsonTag.isPrefixOf (tcTailF (bc :: bt) rest) = true := by
    rw [show tcTailF (bc :: bt) rest
        = jsonTag ++ ('\n' :: ((bc :: bt) ++ (termL ++ rest))) from rfl]
    rw [ List.isPrefixOf_iff_prefix]
    exact List.prefix_append _ _
  have hdrop : (tcTailF (bc :: bt) rest).drop 4 = '\n' :: ((bc :: bt) ++ (termL ++ rest)) := by
    rw [show tcTailF (bc :: bt) rest
        = jsonTag ++ ('\n' :: ((bc :: bt) ++ (termL ++ rest))) from rfl]
    rw [show (4 : Nat) = jsonTag.length from by decide]
    exact List.drop_left _ _
  have hnl := nlBody_block bc bt rest hb hterm
  have hfence : fenceTail (tcTailF (bc :: bt) rest)
      = some (jsonTag ++ ['\n'], bc :: bt, rest) := by
    unfold fenceTail
    rw [hjson]
    simp only [if_true]
    rw [hdrop, hnl]
  rw [hT]
  unfold tryMatch
  rw [chopLit_exact]
  simp only [hw1, hB, hC, hD, hE, hT4, hchop2, hfence]
  rw [if_neg (by simp)]
  rw [if_pos (by decide)]
  simp [mkBlock]

theorem segReplace_not_matching {tn : List Char} {args : JVal} {r : List Char} {s : Seg}
    (h : segMatches tn args s = false) : segReplace tn args r s = segText s := by
  cases s with
  | lit _ => rfl
  | call m =>
    simp only [segMatches] at h
    simp only [segReplace, segText]
    split at h
    · rename_i heq
      rw [if_pos heq]
      cases ha : jsonLoads (stripWs m.body) with
      | some a =>
        rw [ha] at h
        simp only [decide_eq_false_iff_not] at h
        simp [h]
      | none => simp
    · rename_i hne
      rw [if_neg hne]

theorem substitute_no_match (t tn : List Char) (args : JVal) (r : List Char)
    (h : ∀ s ∈ scanT t, segMatches tn args s = false) :
    replace_tool_call_with_result t tn args r = t := by
  unfold replace_tool_call_with_result
  rw [List.map_congr_left (fun s hs => segReplace_not_matching (h s hs))]
  exact scanT_reconstruct t

theorem filterMap_call_lits (l : List Char) :
    (l.map Seg.lit).filterMap
      (fun s => match s with | .call m => some m | _ => none) = ([] : List TCM) := by
  induction l with
  | nil => rfl
  | cons c cs ih => simp [ih]

theorem extract_of_no_marker (t : List Char)
    (h : ∀ i < t.length, tcMarker.isPrefixOf (t.drop i) = false) : extract_tool_calls t = [] := by
  unfold extract_tool_calls findTCs
  rw [scanT_all_lit t h, filterMap_call_lits]
  rfl

theorem nthConv_shift (gen : List Char → List Char) (et : List Char → JVal → ToolOutcome) :
    ∀ (k : Nat) (conv : List Char),
      nthConv gen et conv (k + 1) = nthConv gen et (convStep gen et conv) k := by
  intro k
  induction k with
  | zero => intro conv; rfl
  | succ k ih =>
    intro conv
    calc nthConv gen et conv (k + 2)
        = convStep gen et (nthConv gen et conv (k + 1)) := rfl
      _ = convStep gen et (nthConv gen et (convStep gen et conv) k) := by rw [ih]
      _ = nthConv gen et (convStep gen et conv) (k + 1) := rfl

theorem agenticGo_always_calls (gen : List Char → List Char)
    (et : List Char → JVal → ToolOutcome)
    (h : ∀ c, extract_tool_calls (gen c) ≠ []) :
    ∀ (n : Nat) (conv : List Char) (last : Option (List Char)),
      (agenticGo gen et (n + 1) conv last).output = some (gen (nthConv gen et conv n))
        ∧ (agenticGo gen et (n + 1) conv last).genCalls = n + 1 := by
  intro n
  induction n with
  | zero =>
    intro conv last
    simp only [agenticGo]
    rw [if_neg (h conv)]
    exact ⟨rfl, rfl⟩
  | succ k ih =>
    intro conv last
    have hunfold : agenticGo gen et (k + 1 + 1) conv last
        = (if extract_tool_calls (gen conv) = [] then
            (⟨some (gen conv), 1, 0⟩ : AgenticResult)
          else
            ⟨(agenticGo gen et (k + 1) (convStep gen et conv) (some (gen conv))).output,
             (agenticGo gen et (k + 1) (convStep gen et conv) (some (gen conv))).genCalls + 1,
             (agenticGo gen et (k + 1) (convStep gen et conv) (some (gen conv))).toolExecs
               + (extract_tool_calls (gen conv)).length⟩) := rfl
    rw [hunfold, if_neg (h conv)]
    have hstep := ih (convStep gen et conv) (some (gen conv))
    rw [nthConv_shift]
    exact ⟨hstep.1, by simp [hstep.2]⟩

theorem agenticGo_early_exit (gen : List Char → List Char)
    (et : List Char → JVal → ToolOutcome) :
    ∀ (n : Nat) (conv : List Char) (last : Option (List Char)),
      (agenticGo gen et n conv last).genCalls < n →
      ∃ o, (agenticGo gen et n conv last).output = some o ∧ extract_tool_calls o = [] := by
  intro n
  induction n with
  | zero => intro conv last h; simp [agenticGo] at h
  | succ k ih =>
    intro conv last h
    by_cases hc : extract_tool_calls (gen conv) = []
    · exact ⟨gen conv, by simp [agenticGo, hc], hc⟩
    · simp only [agenticGo] at h ⊢
      rw [if_neg hc] at h ⊢
      simp only at h ⊢
      have hlt : (agenticGo gen et k
          (convAppend conv (gen conv)
            (format_tool_results_for_llm (runCalls et (extract_tool_calls (gen conv)))))
          (some (gen conv))).genCalls < k := by omega
      exact ih _ _ hlt

theorem dictLookup_insert {α β : Type} [DecidableEq α] (k k' : α) (v : β) :
    ∀ d : List (α × β),
      dictLookup k' (dictInsert k v d) = if k = k' then some v else dictLookup k' d := by
  intro d
  induction d with
  | nil => simp [dictInsert, dictLookup]
  | cons kv t ih =>
    obtain ⟨k'', v''⟩ := kv
    by_cases hk : k'' = k
    · subst hk
      by_cases hk' : k'' = k'
      · subst hk'
        simp [dictInsert, dictLookup]
      · simp [dictInsert, dictLookup, hk']
    · by_cases hk' : k'' = k'
      · subst hk'
        have h2 : ¬(k = k'') := fun h => hk h.symm
        simp [dictInsert, dictLookup, hk, h2]
      · simp [dictInsert, dictLookup, hk, hk', ih]

theorem dictLookup_none_of_not_mem {α β : Type} [DecidableEq α] (k : α) :
    ∀ l : List (α × β), k ∉ l.map Prod.fst → dictLookup k l = none := by
  intro l
  induction l with
  | nil => intro _; rfl
  | cons kv t ih =>
    intro h
    obtain ⟨k', v⟩ := kv
    simp only [List.map_cons, List.mem_cons] at h
    push_neg at h
    have h1 : ¬(k' = k) := fun he => h.1 he.symm
    simp [dictLookup, h1, ih h.2]

theorem dictMerge_lookup {α β : Type} [DecidableEq α] :
    ∀ (b a : List (α × β)), (b.map Prod.fst).Nodup → ∀ k,
      dictLookup k (dictMerge a b)
        = match dictLookup k b with
          | some v => some v
          | none => dictLookup k a := by
  intro b
  induction b with
  | nil => intro a _ k; rfl
  | cons kv b' ih =>
    intro a hnd k
    obtain ⟨k₀, v₀⟩ := kv
    simp only [List.map_cons, List.nodup_cons] at hnd
    obtain ⟨hk₀, hnd'⟩ := hnd
    have hmerge : dictMerge a ((k₀, v₀) :: b') = dictMerge (dictInsert k₀ v₀ a) b' := rfl
    rw [hmerge, ih (dictInsert k₀ v₀ a) hnd' k]
    by_cases hkk : k₀ = k
    · subst hkk
      have hb' : dictLookup k₀ b' = none := dictLookup_none_of_not_mem k₀ b' hk₀
      rw [hb']
      simp [dictLookup, dictLookup_insert]
    · cases hlb : dictLookup k b' with
      | some v => simp [dictLookup, hkk, hlb]
      | none => simp [dictLookup, hkk, hlb, dictLookup_insert]

theorem dictLookup_map_values {α β γ : Type} [DecidableEq α] (g : β → γ) (k : α) :
    ∀ l : List (α × β),
      dictLookup k (l.map (fun kv => (kv.1, g kv.2))) = (dictLookup k l).map g := by
  intro l
  induction l with
  | nil => rfl
  | cons kv t ih =>
    obtain ⟨k', v⟩ := kv
    by_cases h : k' = k
    · simp [dictLookup, h]
    · simp [dictLookup, h, ih]

theorem ctbnGo_eq_find (m : Manager) (tn : String) (args : JVal) :
    ∀ conns : List (String × Conn),
      ctbnGo m tn args conns
        = match conns.find? (fun p => p.2.tools.any (fun tl => tl.name == tn)) with
          | some p => call_tool m p.1 tn args
          | none => .error (.toolNotFound tn) := by
  intro conns
  induction conns with
  | nil => rfl
  | cons p rest ih =>
    obtain ⟨sn, conn⟩ := p
    by_cases hp : conn.tools.any (fun tl => tl.name == tn) = true
    · simp [ctbnGo, List.find?_cons, hp]
    · rw [show ctbnGo m tn args ((sn, conn) :: rest)
          = if conn.tools.any (fun tl => tl.name == tn) then call_tool m sn tn args
            else ctbnGo m tn args rest from rfl]
      rw [if_neg hp]
      rw [ih]
      have hfind : ((sn, conn) :: rest).find? (fun p => p.2.tools.any (fun tl => tl.name == tn))
          = rest.find? (fun p => p.2.tools.any (fun tl => tl.name == tn)) := by
        rw [List.find?_cons]
        simp [hp]
      rw [hfind]

/-! ## Claim theorems -/

/-- C1 (counterexample): a second `connect` for a name that already has a
registered live connection does not fail and does not keep the existing
connection: the registry entry is silently replaced (`self.connections[name]
= connection` is a plain dict assignment), and the new connection's tools
are returned as on any successful connect. -/
theorem c1_counterexample :
    dictLookup "alpha" mgrOne.connections = some connOne
    ∧ (connect mgrOne "alpha" connTwo).2 = connTwo.tools
    ∧ dictLookup "alpha" (connect mgrOne "alpha" connTwo).1.connections = some connTwo
    ∧ connTwo ≠ connOne := by
  refine ⟨?_, rfl, ?_, ?_⟩
  · simp [mgrOne, dictLookup]
  · simp [connect, mgrOne, dictInsert, dictLookup]
  · intro h
    have := congrArg Conn.sessionId h
    simp [connTwo, connOne] at this

/-- C1 (amended): the per-name uniqueness is enforced one layer up, by the
HTTP connect endpoint: when `is_connected` already holds for the name, the
endpoint answers 400 `"Server '<name>' is already connected"`, leaves the
manager state untouched, and starts no background task — the existing
connection is neither torn down nor replaced.  The manager's own
`connect`/`connect_persistent` perform no such check. -/
theorem c1_connect_endpoint_rejects_duplicate (m : Manager) (name : String)
    (est : Option Conn) (h : is_connected m name = true) :
    connect_mcp_server m name est
      = ⟨400, some ("Server '" ++ name ++ "' is already connected"), m, false⟩ := by
  unfold connect_mcp_server
  rw [if_pos h]

/-- C1 witness: the endpoint check fires on a concrete connected manager. -/
theorem c1_witness :
    is_connected mgrOne "alpha" = true
    ∧ connect_mcp_server mgrOne "alpha" (some connTwo)
        = ⟨400, some ("Server '" ++ "alpha" ++ "' is already connected"), mgrOne, false⟩ := by
  have h : is_connected mgrOne "alpha" = true := by simp [is_connected, mgrOne, dictLookup]
  exact ⟨h, c1_connect_endpoint_rejects_duplicate mgrOne "alpha" (some connTwo) h⟩

/-- C3: for every turn budget `n ≥ 1` and every generation function whose
every output contains at least one well-formed tool-call block, the agentic
loop performs exactly `n` generation calls and then returns the raw text of
the `n`-th (final) generation unchanged, rather than raising an error. -/
theorem c3_agentic_loop_exhausts_turn_budget (gen : List Char → List Char)
    (et : List Char → JVal → ToolOutcome) (init : List Char) (n : Nat)
    (hn : 1 ≤ n) (h : ∀ c, extract_tool_calls (gen c) ≠ []) :
    (agentic_execute gen et n init).genCalls = n
    ∧ (agentic_execute gen et n init).output = some (gen (nthConv gen et init (n - 1))) := by
  obtain ⟨m, rfl⟩ : ∃ m, n = m + 1 := ⟨n - 1, (Nat.succ_pred_eq_of_pos hn).symm⟩
  have hmain := agenticGo_always_calls gen et h m init none
  exact ⟨hmain.2, by simpa [agentic_execute] using hmain.1⟩

/-- C3 witness: with a generator that always emits one tool-call block and a
budget of 2, the loop generates exactly twice and returns the second output. -/
theorem c3_witness :
    (1 ≤ 2) ∧ (∀ c, extract_tool_calls (wGen c) ≠ [])
    ∧ (agentic_execute wGen wExec 2 wInit).genCalls = 2
    ∧ (agentic_execute wGen wExec 2 wInit).output = some (wGen (nthConv wGen wExec wInit 1)) := by
  have h : ∀ c, extract_tool_calls (wGen c) ≠ [] := fun c => by
    show extract_tool_calls wToolText ≠ []
    decide
  have hmain := c3_agentic_loop_exhausts_turn_budget wGen wExec wInit 2 (by decide) h
  exact ⟨by decide, h, hmain.1, hmain.2⟩

/-- C4: for every turn budget `n ≥ 1` and a generation function whose first
output contains no tool-call block, the loop returns that first output,
performs exactly one generation call, and executes no tool calls; moreover
(the only-success-exit direction) whenever the loop stops before exhausting
the budget, the returned text has no tool-call block. -/
theorem c4_agentic_loop_first_output_no_tools (gen : List Char → List Char)
    (et : List Char → JVal → ToolOutcome) (init : List Char) (n : Nat) (hn : 1 ≤ n) :
    (extract_tool_calls (gen init) = [] →
      agentic_execute gen et n init = ⟨some (gen init), 1, 0⟩)
    ∧ ((agentic_execute gen et n init).genCalls < n →
      ∃ o, (agentic_execute gen et n init).output = some o ∧ extract_tool_calls o = []) := by
  constructor
  · intro hc
    obtain ⟨m, rfl⟩ : ∃ m, n = m + 1 := ⟨n - 1, (Nat.succ_pred_eq_of_pos hn).symm⟩
    simp [agentic_execute, agenticGo, hc]
  · intro hlt
    exact agenticGo_early_exit gen et n init none hlt

/-- C4 witness: a generator that never emits tool calls exits on turn one
with its own text, one generation call and zero tool executions. -/
theorem c4_witness :
    (1 ≤ 2) ∧ extract_tool_calls (wGenPlain wInit) = []
    ∧ agentic_execute wGenPlain wExec 2 wInit = ⟨some (wGenPlain wInit), 1, 0⟩ := by
  have hc : extract_tool_calls (wGenPlain wInit) = [] := by decide
  exact ⟨by decide, hc,
    (c4_agentic_loop_first_output_no_tools wGenPlain wExec wInit 2 (by decide)).1 hc⟩

/-- C5: extraction returns the tool calls of the well-formed blocks in
first-to-last appearance order; a block whose fenced body fails to parse as
JSON is skipped and extraction continues past it; and a text containing no
`### TOOL_CALL:` marker at all yields the empty list. -/
theorem c5_extract_tool_calls_behaviour :
    (∀ t : List Char, (∀ i < t.length, tcMarker.isPrefixOf (t.drop i) = false) →
      extract_tool_calls t = [])
    ∧ extract_tool_calls
        (strL "### TOOL_CALL: a\n```json\n1\n```\nmid\n### TOOL_CALL: b\n```\n2\n```")
        = [(strL "a", .num 1), (strL "b", .num 2)]
    ∧ extract_tool_calls
        (strL "x\n### TOOL_CALL: a\n```json\nnotjson\n```\n### TOOL_CALL: b\n```\n\x7b\x7d\n```")
        = [(strL "b", .objNil)] :=
  ⟨fun t h => extract_of_no_marker t h, by decide, by decide⟩

/-- C5 witness: a marker-free text extracts to the empty list. -/
theorem c5_witness : extract_tool_calls (strL "no tool calls here") = [] :=
  c5_extract_tool_calls_behaviour.1 (strL "no tool calls here") (by decide)

/-- C6 (counterexample): the unconditional second half of the claim fails:
after a successful substitution whose result text itself embeds a matching
tool-call block, a second `substitute` with the same name and arguments is
not a no-op — `re.sub` finds and replaces the block inside the inserted
result. -/
theorem c6_counterexample :
    advOnce ≠ advBlock
    ∧ replace_tool_call_with_result advOnce (strL "f") exArgsA advBlock ≠ advOnce := by
  constructor
  · decide
  · decide

/-- C6 (amended): substitute is the identity on a text with no block
matching the name and decoded arguments; consequently a second application
is a no-op whenever the once-substituted text no longer contains a matching
block (in particular for any result that does not itself embed one), as the
concrete double-substitution shows. -/
theorem c6_substitute_identity_and_conditional_idempotence :
    (∀ (t tn : List Char) (args : JVal) (r : List Char),
      (∀ s ∈ scanT t, segMatches tn args s = false) →
      replace_tool_call_with_result t tn args r = t)
    ∧ (∀ (t tn : List Char) (args : JVal) (r : List Char),
      (∀ s ∈ scanT (replace_tool_call_with_result t tn args r), segMatches tn args s = false) →
      replace_tool_call_with_result (replace_tool_call_with_result t tn args r) tn args r
        = replace_tool_call_with_result t tn args r)
    ∧ replace_tool_call_with_result
        (replace_tool_call_with_result exTwoBlocks (strL "f") exArgsA (strL "RES"))
        (strL "f") exArgsA (strL "RES")
      = replace_tool_call_with_result exTwoBlocks (strL "f") exArgsA (strL "RES") :=
  ⟨fun t tn args r h => substitute_no_match t tn args r h,
   fun t tn args r h => substitute_no_match _ tn args r h,
   by decide⟩

/-- C6 witness: identity on a concrete matching-block-free text. -/
theorem c6_witness :
    replace_tool_call_with_result (strL "plain text") (strL "f") exArgsA (strL "RES")
      = strL "plain text" :=
  c6_substitute_identity_and_conditional_idempotence.1
    (strL "plain text") (strL "f") exArgsA (strL "RES") (by decide)

/-- C7 (counterexample): when some processable files succeed and one fails,
the endpoint returns only the zip artifact (`FileResponse`); the failed
file's per-file error is not part of the response — it is only logged. -/
theorem c7_counterexample :
    refactor_endpoint [.succ "a", .succ "b", .err "c" "boom"]
        [("a", "A"), ("b", "B"), ("c", "C")]
      = .artifact [("a", "A"), ("b", "B"), ("c", "C")]
    ∧ respErrors (refactor_endpoint [.succ "a", .succ "b", .err "c" "boom"]
        [("a", "A"), ("b", "B"), ("c", "C")]) = []
    ∧ ("c", "boom") ∉ respErrors (refactor_endpoint [.succ "a", .succ "b", .err "c" "boom"]
        [("a", "A"), ("b", "B"), ("c", "C")]) := by
  refine ⟨by decide, by decide, by decide⟩

/-- C7 (amended): if at least one processable file exists and every
processable file fails, the endpoint returns the 502 error report with one
per-file entry for each failed file and no artifact; if at least one
processable file succeeds, it returns the zip artifact of the current
files, with no per-file error entries in the response. -/
theorem c7_refactor_endpoint_aggregation (results : List FileRes)
    (files : List (String × String)) :
    ((results.filter (fun r => !isSkip r)) ≠ [] →
      ((results.filter (fun r => !isSkip r)).filter isErr).length
          = (results.filter (fun r => !isSkip r)).length →
      refactor_endpoint results files
        = .report 502 "All files failed to process. Is Ollama running and the model pulled?"
            (((results.filter (fun r => !isSkip r)).filter isErr).map
              (fun r => (frName r, frErr r))))
    ∧ ((∃ r ∈ results.filter (fun r => !isSkip r), isErr r = false) →
      refactor_endpoint results files = .artifact files
      ∧ respErrors (refactor_endpoint results files) = []) := by
  constructor
  · intro hne hlen
    have hemp : (results.filter (fun r => !isSkip r)).isEmpty = false := by
      cases hle : (results.filter (fun r => !isSkip r)).isEmpty
      · rfl
      · exact absurd (List.isEmpty_iff.mp hle) hne
    have hbeq : (((results.filter (fun r => !isSkip r)).filter isErr).length
        == (results.filter (fun r => !isSkip r)).length) = true :=
      beq_iff_eq.mpr hlen
    have hcond : (!(results.filter (fun r => !isSkip r)).isEmpty
        && ((results.filter (fun r => !isSkip r)).filter isErr).length
            == (results.filter (fun r => !isSkip r)).length) = true := by
      rw [hemp, hbeq]
      rfl
    unfold refactor_endpoint
    rw [if_pos hcond]
  · intro hex
    obtain ⟨r, hr, hrerr⟩ := hex
    have hlt : ((results.filter (fun r => !isSkip r)).filter isErr).length
        < (results.filter (fun r => !isSkip r)).length := by
      rw [List.length_filter_lt_length_iff_exists]
      exact ⟨r, hr, by simp [hrerr]⟩
    have hbeq : (((results.filter (fun r => !isSkip r)).filter isErr).length
        == (results.filter (fun r => !isSkip r)).length) = false := by
      exact beq_eq_false_iff_ne.mpr (Nat.ne_of_lt hlt)
    have hcond : (!(results.filter (fun r => !isSkip r)).isEmpty
        && ((results.filter (fun r => !isSkip r)).filter isErr).length
            == (results.filter (fun r => !isSkip r)).length) = false := by
      rw [hbeq, Bool.and_false]
    have hres : refactor_endpoint results files = .artifact files := by
      unfold refactor_endpoint
      rw [if_neg (by rw [hcond]; simp)]
    exact ⟨hres, by rw [hres]; rfl⟩

/-- C7 witness: a batch whose processable files all fail returns the 502
report with one entry per failed file; skipped files are not counted. -/
theorem c7_witness :
    refactor_endpoint [FileRes.err "x" "e1", FileRes.skip "y" "meta", FileRes.err "z" "e2"] []
      = .report 502 "All files failed to process. Is Ollama running and the model pulled?"
          [("x", "e1"), ("z", "e2")] :=
  ((c7_refactor_endpoint_aggregation
      [FileRes.err "x" "e1", FileRes.skip "y" "meta", FileRes.err "z" "e2"] []).1
    (by decide) (by decide)).trans (by decide)

/-- C8 (counterexample): on the claim's own example input, the file
created for `a.txt` has content `"hello\n"` — the newline separating the
body from the next marker belongs to the segment — not `"hello"`. -/
theorem c8_counterexample :
    parse_and_save_files (strL "### FILE: a.txt\nhello\n### FILE: ../b.txt\nworld")
      = some [(strL "a.txt", strL "hello\n")]
    ∧ strL "hello\n" ≠ strL "hello" := by
  refine ⟨by decide, by decide⟩

/-- C8 (amended): every file written by `parse_and_save_files` has a safe
name (no `..`, no leading separator); every split segment with a safe
(stripped) name yields a written file with the fence-stripped body; and the
claim's example creates exactly `a.txt` with content `"hello\n"` (trailing
newline included) while `../b.txt` is skipped. -/
theorem c8_parse_and_save_files_safety (raw : List Char)
    (out : List (List Char × List Char)) (h : parse_and_save_files raw = some out) :
    (∀ fc ∈ out, isUnsafeName fc.1 = false)
    ∧ (∀ nb ∈ segPairs (fileSplit raw), isUnsafeName (stripWs nb.1) = false →
        (stripWs nb.1, fenceCleanup nb.2) ∈ out)
    ∧ parse_and_save_files (strL "### FILE: a.txt\nhello\n### FILE: ../b.txt\nworld")
        = some [(strL "a.txt", strL "hello\n")] := by
  rw [show parse_and_save_files raw
      = (if (fileSplit raw).length < 3 then none
         else some ((segPairs (fileSplit raw)).filterMap (fun nb =>
           if isUnsafeName (stripWs nb.1) = true then none
           else some (stripWs nb.1, fenceCleanup nb.2)))) from rfl] at h
  split at h
  · exact absurd h (by simp)
  · simp only [Option.some.injEq] at h
    subst h
    refine ⟨?_, ?_, by decide⟩
    · intro fc hfc
      rw [List.mem_filterMap] at hfc
      obtain ⟨nb, _, hf⟩ := hfc
      by_cases hu : isUnsafeName (stripWs nb.1) = true
      · simp [hu] at hf
      · have hu' : isUnsafeName (stripWs nb.1) = false := by simpa using hu
        simp only [hu', Bool.false_eq_true, if_false, Option.some.injEq] at hf
        rw [← hf]
        exact hu'
    · intro nb hnb hsafe
      rw [List.mem_filterMap]
      exact ⟨nb, hnb, by simp [hsafe]⟩

/-- C8 witness: applying the theorem to a concrete parse shows the written
file's name passed the safety check. -/
theorem c8_witness : isUnsafeName (strL "ok.txt") = false :=
  (c8_parse_and_save_files_safety (strL "### FILE: ok.txt\nbody\n### FILE: /bad\nz")
      [(strL "ok.txt", strL "body\n")] (by decide)).1
    (strL "ok.txt", strL "body\n") (by decide)

/-- C9: when no connected server owns the tool name, `call_tool_by_name`
fails with the distinct tool-not-found `ValueError` naming the tool, and
the management route surfaces it as a 404 whose error body is exactly
`"Tool '<name>' not found on any connected server"`; when some connection
owns the name, the call is dispatched via `call_tool` to the first owning
connection in manager iteration order. -/
theorem c9_call_tool_by_name_not_found (m : Manager) (tn : String) (args : JVal) :
    ((∀ p ∈ m.connections, ∀ tl ∈ p.2.tools, tl.name ≠ tn) →
      call_tool_by_name m tn args = .error (.toolNotFound tn)
      ∧ call_mcp_tool m tn args
          = ⟨404, some ("Tool '" ++ tn ++ "' not found on any connected server")⟩)
    ∧ (∀ p, m.connections.find? (fun q => q.2.tools.any (fun tl => tl.name == tn)) = some p →
        call_tool_by_name m tn args = call_tool m p.1 tn args) := by
  constructor
  · intro h
    have hfind : m.connections.find?
        (fun q => q.2.tools.any (fun tl => tl.name == tn)) = none := by
      rw [List.find?_eq_none]
      intro p hp
      rw [Bool.not_eq_true, List.any_eq_false]
      intro tl htl
      simpa using h p hp tl htl
    have hby : call_tool_by_name m tn args = .error (.toolNotFound tn) := by
      unfold call_tool_by_name
      rw [ctbnGo_eq_find m tn args m.connections, hfind]
    refine ⟨hby, ?_⟩
    unfold call_mcp_tool
    rw [hby]
    rfl
  · intro p hp
    unfold call_tool_by_name
    rw [ctbnGo_eq_find m tn args m.connections, hp]

/-- C9 witness: a manager whose only connection owns a differently-named
tool answers tool-not-found and 404 for `t`. -/
theorem c9_witness :
    call_tool_by_name mgrNine "t" .null = .error (.toolNotFound "t")
    ∧ call_mcp_tool mgrNine "t" .null
        = ⟨404, some ("Tool '" ++ "t" ++ "' not found on any connected server")⟩ :=
  (c9_call_tool_by_name_not_found mgrNine "t" .null).1 (by
    intro p hp tl htl
    rw [show mgrNine.connections = [("s", connOther)] from rfl] at hp
    rw [List.mem_singleton] at hp
    subst hp
    rw [show connOther.tools = [⟨"s", "other", "", .null⟩] from rfl] at htl
    rw [List.mem_singleton] at htl
    subst htl
    decide)

/-- C10: for a stdio server entry, the environment handed to the spawned
process is `\x7b**os.environ, **entry.env\x7d`: an entry variable overrides the
process value (after `$\x7bVAR\x7d` interpolation of the entry's value), and every
process variable not named by the entry is inherited unchanged — the
configured mapping is never passed alone. -/
theorem c10_stdio_env_merge (procEnv : List (List Char × List Char)) (cfg : StdioCfg)
    (hnd : (cfg.env.map Prod.fst).Nodup) (k : List Char) :
    (∀ v, dictLookup k cfg.env = some v →
      dictLookup k (load_stdio_server procEnv cfg).env = some (interpStr procEnv v))
    ∧ (dictLookup k cfg.env = none →
      dictLookup k (load_stdio_server procEnv cfg).env = dictLookup k procEnv) := by
  have hkeys : ((cfg.env.map (fun kv => (kv.1, interpStr procEnv kv.2))).map Prod.fst).Nodup := by
    rw [List.map_map]
    exact hnd
  have henv : (load_stdio_server procEnv cfg).env
      = dictMerge procEnv (cfg.env.map (fun kv => (kv.1, interpStr procEnv kv.2))) := rfl
  have hm := dictMerge_lookup (cfg.env.map (fun kv => (kv.1, interpStr procEnv kv.2)))
    procEnv hkeys k
  constructor
  · intro v hv
    rw [henv, hm, dictLookup_map_values, hv]
    rfl
  · intro hv
    rw [henv, hm, dictLookup_map_values, hv]
    rfl

/-- C10 witness: the entry value overrides `K`, and `P` is inherited from
the process environment. -/
theorem c10_witness :
    dictLookup (strL "K") (load_stdio_server wProcEnv wCfg).env = some (strL "entry")
    ∧ dictLookup (strL "P") (load_stdio_server wProcEnv wCfg).env = some (strL "inherit") := by
  have h1 := (c10_stdio_env_merge wProcEnv wCfg (by decide) (strL "K")).1 (strL "entry") (by decide)
  have h2 := (c10_stdio_env_merge wProcEnv wCfg (by decide) (strL "P")).2 (by decide)
  exact ⟨h1.trans (by decide), h2.trans (by decide)⟩

/-- C2 (counterexample): when the text contains two blocks with the same
name and equal arguments, `re.sub` replaces BOTH, not only the first: the
actual output differs from the only-first-replaced text the claim
prescribes. -/
theorem c2_counterexample :
    replace_tool_call_with_result exTwoBlocks (strL "f") exArgsA (strL "RES")
      = strL "x\n" ++ resultBlock (strL "f") (strL "RES") ++ strL "\nmid\n"
          ++ resultBlock (strL "f") (strL "RES") ++ strL "\ntail"
    ∧ strL "x\n" ++ resultBlock (strL "f") (strL "RES") ++ strL "\nmid\n"
          ++ resultBlock (strL "f") (strL "RES") ++ strL "\ntail"
      ≠ strL "x\n" ++ resultBlock (strL "f") (strL "RES") ++ strL "\nmid\n"
          ++ advBlock ++ strL "\ntail" := by
  refine ⟨by decide, by decide⟩

/-- C2 (amended): `replace_tool_call_with_result` replaces EVERY block
whose name equals the given name and whose JSON-decoded arguments equal the
given arguments, and reproduces all other text verbatim: with two
well-formed blocks of the same name, both are replaced when both decode to
the given arguments, while the second is left untouched when its arguments
decode to a different value. -/
theorem c2_substitute_replaces_every_matching_block
    (pre mid post : List Char) (nc bc1 bc2 : Char) (nt bt1 bt2 result : List Char) (args : JVal)
    (hn : ∀ c ∈ nc :: nt, c.isWhitespace = false)
    (hb1 : bc1.isWhitespace = false) (hb2 : bc2.isWhitespace = false)
    (hterm1 : ∀ i < (bc1 :: bt1).length, termL.isPrefixOf
        (((bc1 :: bt1) ++ termL
          ++ (mid ++ (mkBlock (nc :: nt) (bc2 :: bt2) ++ post))).drop i) = false)
    (hterm2 : ∀ i < (bc2 :: bt2).length,
        termL.isPrefixOf (((bc2 :: bt2) ++ termL ++ post).drop i) = false)
    (hpre : ∀ i < pre.length, tcMarker.isPrefixOf
        ((pre ++ (mkBlock (nc :: nt) (bc1 :: bt1)
          ++ (mid ++ (mkBlock (nc :: nt) (bc2 :: bt2) ++ post)))).drop i) = false)
    (hmid : ∀ i < mid.length, tcMarker.isPrefixOf
        ((mid ++ (mkBlock (nc :: nt) (bc2 :: bt2) ++ post)).drop i) = false)
    (hpost : ∀ i < post.length, tcMarker.isPrefixOf (post.drop i) = false)
    (hj1 : jsonLoads (stripWs (bc1 :: bt1)) = some args) :
    (jsonLoads (stripWs (bc2 :: bt2)) = some args →
      replace_tool_call_with_result
        (pre ++ (mkBlock (nc :: nt) (bc1 :: bt1)
          ++ (mid ++ (mkBlock (nc :: nt) (bc2 :: bt2) ++ post))))
        (nc :: nt) args result
      = pre ++ (resultBlock (nc :: nt) result
          ++ (mid ++ (resultBlock (nc :: nt) result ++ post))))
    ∧ (∀ args2, jsonLoads (stripWs (bc2 :: bt2)) = some args2 → args2 ≠ args →
      replace_tool_call_with_result
        (pre ++ (mkBlock (nc :: nt) (bc1 :: bt1)
          ++ (mid ++ (mkBlock (nc :: nt) (bc2 :: bt2) ++ post))))
        (nc :: nt) args result
      = pre ++ (resultBlock (nc :: nt) result
          ++ (mid ++ (mkBlock (nc :: nt) (bc2 :: bt2) ++ post)))) := by
  have hscan : scanT (pre ++ (mkBlock (nc :: nt) (bc1 :: bt1)
        ++ (mid ++ (mkBlock (nc :: nt) (bc2 :: bt2) ++ post))))
      = pre.map .lit
          ++ (.call ⟨mkBlock (nc :: nt) (bc1 :: bt1), nc :: nt, bc1 :: bt1⟩
            :: (mid.map .lit
              ++ (.call ⟨mkBlock (nc :: nt) (bc2 :: bt2), nc :: nt, bc2 :: bt2⟩
                :: post.map .lit))) := by
    rw [scanT_append_lit pre _ hpre]
    rw [scanT_cons_match (tryMatch_mkBlock nc bc1 nt bt1 _ hn hb1 hterm1)]
    rw [scanT_append_lit mid _ hmid]
    rw [scanT_cons_match (tryMatch_mkBlock nc bc2 nt bt2 _ hn hb2 hterm2)]
    rw [scanT_all_lit post hpost]
  have hlit : ∀ l : List Char,
      ((l.map Seg.lit).map (segReplace (nc :: nt) args result)).flatten = l := by
    intro l
    rw [List.map_map]
    rw [show (segReplace (nc :: nt) args result) ∘ Seg.lit
        = fun c => ([c] : List Char) from rfl]
    exact flatten_singletons l
  have hsr1 : segReplace (nc :: nt) args result
      (.call ⟨mkBlock (nc :: nt) (bc1 :: bt1), nc :: nt, bc1 :: bt1⟩)
      = resultBlock (nc :: nt) result := by
    simp only [segReplace]
    rw [stripWs_eq_self hn, if_pos rfl, hj1]
    simp
  constructor
  · intro hj2
    have hsr2 : segReplace (nc :: nt) args result
        (.call ⟨mkBlock (nc :: nt) (bc2 :: bt2), nc :: nt, bc2 :: bt2⟩)
        = resultBlock (nc :: nt) result := by
      simp only [segReplace]
      rw [stripWs_eq_self hn, if_pos rfl, hj2]
      simp
    unfold replace_tool_call_with_result
    rw [hscan]
    rw [List.map_append, List.flatten_append, hlit pre]
    rw [List.map_cons, List.flatten_cons, hsr1]
    rw [List.map_append, List.flatten_append, hlit mid]
    rw [List.map_cons, List.flatten_cons, hsr2, hlit post]
  · intro args2 hj2 hne
    have hsr2 : segReplace (nc :: nt) args result
        (.call ⟨mkBlock (nc :: nt) (bc2 :: bt2), nc :: nt, bc2 :: bt2⟩)
        = mkBlock (nc :: nt) (bc2 :: bt2) := by
      simp only [segReplace]
      rw [stripWs_eq_self hn, if_pos rfl, hj2]
      simp [hne]
    unfold replace_tool_call_with_result
    rw [hscan]
    rw [List.map_append, List.flatten_append, hlit pre]
    rw [List.map_cons, List.flatten_cons, hsr1]
    rw [List.map_append, List.flatten_append, hlit mid]
    rw [List.map_cons, List.flatten_cons, hsr2, hlit post]

/-- C2 witness: the two-identical-blocks instance of the amended theorem,
fully concrete: both blocks become TOOL_RESULT blocks. -/
theorem c2_witness :
    replace_tool_call_with_result
      (strL "x\n" ++ (mkBlock (strL "f") (lbrace :: strL "\"a\": 1\x7d")
        ++ (strL "\nmid\n" ++ (mkBlock (strL "f") (lbrace :: strL "\"a\": 1\x7d")
          ++ strL "\ntail"))))
      (strL "f") exArgsA (strL "RES")
    = strL "x\n" ++ (resultBlock (strL "f") (strL "RES")
        ++ (strL "\nmid\n" ++ (resultBlock (strL "f") (strL "RES") ++ strL "\ntail"))) :=
  (c2_substitute_replaces_every_matching_block
      (strL "x\n") (strL "\nmid\n") (strL "\ntail") 'f' lbrace lbrace []
      (strL "\"a\": 1\x7d") (strL "\"a\": 1\x7d") (strL "RES") exArgsA
      (by decide) (by decide) (by decide) (by decide) (by decide)
      (by decide) (by decide) (by decide) (by decide)).1 (by decide)

end LocalChatMCP
